import Mathlib

/-!
Shallow embedding of the simpy discrete-event simulation core
(src/src/simpy/core.py) and of the generic resource put/get protocol
(src/simpy/resources/base.py).

The scheduler state (Environment) carries the current time, the event
queue, the insertion-sequence counter and the states of the events it
may fire.  The heap used by the Python code is modelled by a list
together with a pop-minimum operation: heappush appends, heappop
extracts the entry with the lexicographically least
(time, priority, sequence) key, which is exactly the observable
behaviour of the binary heap (keys are distinct in every state the
scheduler itself produces, since sequence numbers are unique).

Event objects live in simpy/events.py, which is not part of the given
sources; the attributes core.py reads and writes (_ok, _value, the
callbacks list, the _defused marker) and the URGENT/NORMAL priority
constants are modelled from the spec.  Callbacks are modelled by a
small repertoire sufficient for the behaviour core.py itself installs:
StopSimulation.callback, a callback registering a callback on some
event (to expose the detach-before-invoke discipline) and a no-op.
-/

namespace Simpy

/-- Modelled from the spec: the priority constants live in simpy/events.py,
which is not under src/.  The spec says urgent breaks ties before normal at
equal time, so URGENT must compare smaller in the entry key. -/
def URGENT : Nat := 0

/-- Modelled from the spec: see URGENT. -/
def NORMAL : Nat := 1

/-- Values carried by events: Python None, numbers, and exception objects
(an arbitrary error payload plus the two exception kinds core.py itself can
produce when misused: AttributeError and TypeError). -/
inductive Val
  | nil
  | num (n : Int)
  | err (code : Nat)
  | attrErr
  | typeErr
deriving DecidableEq

/-- The callbacks the model can attach to an event.
stopSim is StopSimulation.callback from core.py; registerStop models a
callback appending StopSimulation.callback to the callback list of event
tgt (the only mutation of callback lists core.py performs); nop is a
callback with no effect on the scheduler state. -/
inductive Callback
  | stopSim
  | registerStop (tgt : Nat)
  | nop
deriving DecidableEq

/-- Modelled from the spec: the Event attributes read and written by
core.py.  ok is _ok, value is _value (none models the PENDING sentinel),
defused models the presence of the _defused attribute, callbacks is the
callbacks list (none once the event has been fired and the list detached). -/
structure EventState where
  ok : Bool := false
  value : Option Val := Option.none
  defused : Bool := false
  callbacks : Option (List Callback) := Option.none
deriving DecidableEq

instance : Inhabited EventState := ⟨{}⟩

/-- One entry of the scheduler's queue: the 4-tuple
(time, priority, sequence, event) pushed by Environment.schedule. -/
structure Entry where
  time : Int
  prio : Nat
  seq : Nat
  eid : Nat
deriving DecidableEq

/-- Non-strict lexicographic order on the (time, priority, sequence) part
of an entry: the order by which heapq compares the pushed tuples (the
event itself is never compared because sequence numbers are unique). -/
def Entry.keyLE (a b : Entry) : Prop :=
  a.time < b.time ∨
    (a.time = b.time ∧ (a.prio < b.prio ∨ (a.prio = b.prio ∧ a.seq ≤ b.seq)))

/-- Strict lexicographic order on the (time, priority, sequence) key. -/
def Entry.keyLT (a b : Entry) : Prop :=
  a.time < b.time ∨
    (a.time = b.time ∧ (a.prio < b.prio ∨ (a.prio = b.prio ∧ a.seq < b.seq)))

instance (a b : Entry) : Decidable (a.keyLE b) := by
  unfold Entry.keyLE; exact inferInstance

instance (a b : Entry) : Decidable (a.keyLT b) := by
  unfold Entry.keyLT; exact inferInstance

/-- heappop on the modelled queue: remove the entry with the least
(time, priority, sequence) key, returning it and the remaining entries. -/
def popMin : List Entry → Option (Entry × List Entry)
  | [] => Option.none
  | e :: q =>
    match popMin q with
    | Option.none => some (e, [])
    | some (m, q') => if e.keyLE m then some (e, q) else some (m, e :: q')

/-- The Environment of core.py: current time _now, the scheduled-event
queue, the insertion counter _eid (next sequence number to hand out), and
the table of event states the queue entries refer to. -/
structure CoreState where
  now : Int
  queue : List Entry
  seq : Nat
  events : List EventState
deriving DecidableEq

/-- Read an event's state (attribute access on the Event object). -/
def getEvent (s : CoreState) (i : Nat) : EventState :=
  s.events.getD i default

/-- Write an event's state back into the table. -/
def setEvent (s : CoreState) (i : Nat) (ev : EventState) : CoreState :=
  { s with events := s.events.set i ev }

/-- Environment.__init__(initial_time): time starts at t, the queue is
empty and the sequence counter at zero.  evs is the table of pre-existing
event objects the simulation may refer to. -/
def initState (t : Int) (evs : List EventState) : CoreState :=
  ⟨t, [], 0, evs⟩

/-- Environment.schedule(event, priority, delay): push
(now + delay, priority, next(eid), event) onto the queue.  No validation
of any argument is performed. -/
def schedule (s : CoreState) (eid : Nat) (prio : Nat) (delay : Int) :
    CoreState :=
  { s with
    queue := s.queue ++ [⟨s.now + delay, prio, s.seq, eid⟩]
    seq := s.seq + 1 }

/-- Exceptions a callback may raise: StopSimulation (carrying the until
event's value) or an ordinary exception. -/
inductive Raised
  | stop (v : Val)
  | exc (v : Val)
deriving DecidableEq

/-- Outcome of running callbacks: either normal completion or an
exception, in both cases with the scheduler state reached. -/
inductive CbResult
  | ok (s : CoreState)
  | raised (r : Raised) (s : CoreState)
deriving DecidableEq

/-- The state carried by a callback outcome. -/
def CbResult.st : CbResult → CoreState
  | .ok s => s
  | .raised _ s => s

/-- Run one callback against the event being fired.
stopSim is StopSimulation.callback: raise StopSimulation(event.value) if
the event is ok, else re-raise the event's failure value (reading value
of a pending event raises AttributeError).  registerStop appends
StopSimulation.callback to the target's callback list; on an already
fired target (callbacks detached, i.e. None) the append raises
AttributeError. -/
def runCallback (c : Callback) (fired : Nat) (s : CoreState) : CbResult :=
  match c with
  | .nop => .ok s
  | .stopSim =>
    let ev := getEvent s fired
    match ev.value with
    | some v => if ev.ok then .raised (.stop v) s else .raised (.exc v) s
    | Option.none => .raised (.exc Val.attrErr) s
  | .registerStop tgt =>
    match (getEvent s tgt).callbacks with
    | Option.none => .raised (.exc Val.attrErr) s
    | some l =>
      .ok (setEvent s tgt
        { getEvent s tgt with callbacks := some (l ++ [Callback.stopSim]) })

/-- Run a list of callbacks in order; an exception from one of them
prevents the rest from running, as in Python. -/
def runCallbacks : List Callback → Nat → CoreState → CbResult
  | [], _, s => .ok s
  | c :: rest, f, s =>
    match runCallback c f s with
    | .ok s' => runCallbacks rest f s'
    | .raised r s' => .raised r s'

/-- Outcome of Environment.step: normal return, EmptySchedule,
StopSimulation escaping from a callback, or an exception (an unhandled
event failure, or an exception raised by a callback). -/
inductive StepResult
  | ok (s : CoreState)
  | emptySchedule
  | stopSim (v : Val) (s : CoreState)
  | failure (v : Val) (s : CoreState)
deriving DecidableEq

/-- The state a step outcome carries, if any (EmptySchedule is raised
before any mutation). -/
def StepResult.state? : StepResult → Option CoreState
  | .ok s => some s
  | .emptySchedule => Option.none
  | .stopSim _ s => some s
  | .failure _ s => some s

/-- The state in which the popped event's callbacks are invoked: now has
been advanced to the entry's time, the entry removed from the queue, and
the event's callback list detached (set to None) before any callback
runs. -/
def fireState (s : CoreState) (e : Entry) (q' : List Entry) : CoreState :=
  let s1 : CoreState := { s with now := e.time, queue := q' }
  setEvent s1 e.eid { getEvent s1 e.eid with callbacks := Option.none }

/-- Environment.step: pop the least entry (EmptySchedule if the queue is
empty), set now to its time, detach the event's callback list, invoke the
callbacks, then, if the event failed and was not defused, raise a copy of
its failure value.  A popped event whose callback list is already None
makes the for-loop iterate over None: TypeError. -/
def step (s : CoreState) : StepResult :=
  match popMin s.queue with
  | Option.none => .emptySchedule
  | some (e, q') =>
    match (getEvent s e.eid).callbacks with
    | Option.none => .failure Val.typeErr { s with now := e.time, queue := q' }
    | some cbs =>
      match runCallbacks cbs e.eid (fireState s e q') with
      | .raised (.stop v) s3 => .stopSim v s3
      | .raised (.exc v) s3 => .failure v s3
      | .ok s3 =>
        let ev := getEvent s3 e.eid
        if ev.ok = false ∧ ev.defused = false then
          .failure (ev.value.getD Val.attrErr) s3
        else .ok s3

/-- Outcome of Environment.run: a value returned through StopSimulation,
normal return on EmptySchedule with no until, the ValueError for a
non-future numeric until, the RuntimeError for a schedule that empties
before the until event fires, the AssertionError guarding that branch,
or a propagated exception. -/
inductive RunResult
  | value (v : Val) (s : CoreState)
  | normal (s : CoreState)
  | valueError
  | runtimeError (s : CoreState)
  | assertFail (s : CoreState)
  | failure (v : Val) (s : CoreState)
deriving DecidableEq

/-- The exception handling of one iteration of run's while-True loop:
a normal step continues the loop; EmptySchedule terminates it, normally
without an until event, and with the assert-guarded RuntimeError when an
until event was expected but never fired; StopSimulation returns the
until value; any other exception propagates. -/
def loopOut (untilE : Option Nat) (s : CoreState) (r : StepResult)
    (rec : CoreState → RunResult) : RunResult :=
  match r with
  | .ok s' => rec s'
  | .emptySchedule =>
    match untilE with
    | Option.none => .normal s
    | some e =>
      if (getEvent s e).value.isSome then .assertFail s else .runtimeError s
  | .stopSim v s' => .value v s'
  | .failure v s' => .failure v s'

/-- The while-True/step loop of Environment.run, with explicit fuel.
In this model no callback ever schedules a new event, so every successful
step removes exactly one queue entry and fuel equal to the queue length
is always sufficient; the zero-fuel result is never reached from run
(proved below for the runs the theorems describe). -/
def runLoopF : Nat → Option Nat → CoreState → RunResult
  | 0, untilE, s => loopOut untilE s (step s) (fun s' => RunResult.normal s')
  | n + 1, untilE, s => loopOut untilE s (step s) (runLoopF n untilE)

/-- The run loop entered with the fuel that always suffices. -/
def runLoop (untilE : Option Nat) (s : CoreState) : RunResult :=
  runLoopF s.queue.length untilE s

/-- until.callbacks.append(StopSimulation.callback).  The None case
cannot be reached from run (a freshly created until event has an empty
list and the event-until branch is guarded by a callbacks-is-None test). -/
def appendStopCb (s : CoreState) (e : Nat) : CoreState :=
  match (getEvent s e).callbacks with
  | some l =>
    setEvent s e { getEvent s e with callbacks := some (l ++ [Callback.stopSim]) }
  | Option.none => s

/-- The synthetic until event created by run for a numeric deadline:
already succeeded, value None, fresh empty callback list. -/
def untilEvent : EventState :=
  { ok := true, value := some Val.nil, defused := false, callbacks := some [] }

/-- The three shapes of run's until argument. -/
inductive Until
  | none
  | time (t : Int)
  | event (e : Nat)

/-- Environment.run(until):
with no until, loop until EmptySchedule; with a numeric until, reject a
deadline not strictly beyond now (ValueError), otherwise create an
already-succeeded event with value None, schedule it URGENT at the
deadline, attach StopSimulation.callback and loop; with an event until,
return its value at once if it was already processed (callbacks None),
otherwise attach StopSimulation.callback and loop. -/
def run (s : CoreState) (u : Until) : RunResult :=
  match u with
  | .none => runLoop Option.none s
  | .time t =>
    if t ≤ s.now then .valueError
    else
      let eid := s.events.length
      let s1 : CoreState :=
        { s with events := s.events ++ [untilEvent] }
      let s2 := schedule s1 eid URGENT (t - s.now)
      runLoop (some eid) (appendStopCb s2 eid)
  | .event e =>
    match (getEvent s e).callbacks with
    | Option.none =>
      match (getEvent s e).value with
      | some v => .value v s
      | Option.none => .failure Val.attrErr s
    | some _ => runLoop (some e) (appendStopCb s e)

/-- A step of user code driving the environment: a schedule call or a
step call (a step on an empty queue raises EmptySchedule and leaves the
state unchanged). -/
inductive Op
  | sched (eid : Nat) (prio : Nat) (delay : Int)
  | step

/-- The state a step leaves behind, EmptySchedule leaving it unchanged. -/
def stepKeep (s : CoreState) : CoreState :=
  ((step s).state?).getD s

/-- Run a sequence of schedule/step calls against the environment. -/
def exec : CoreState → List Op → CoreState
  | s, [] => s
  | s, Op.sched e p d :: ops => exec (schedule s e p d) ops
  | s, Op.step :: ops => exec (stepKeep s) ops

/-- The delay an operation passes to schedule (0 for a step call). -/
def Op.delay : Op → Int
  | .sched _ _ d => d
  | .step => 0

/-- An event state that fires without any effect: succeeded, no
callbacks registered. -/
def plainEv (ev : EventState) : Prop :=
  ev.ok = true ∧ ev.callbacks = some []

instance (ev : EventState) : Decidable (plainEv ev) := by
  unfold plainEv; exact inferInstance

end Simpy

namespace Simpy

/-! ## The resource put/get protocol of src/simpy/resources/base.py

A resource is modelled by its domain-specific state S together with the
two abstract hooks; _do_put/_do_get either resolve the request event
immediately (returning the updated domain state) or leave it pending
(returning none).  Requests are identified by numbers; the put_queue and
get_queue hold the pending request events in arrival order. -/

/-- BaseResource: the domain state plus the two queues of pending
requests. -/
structure BaseResource (S : Type) where
  state : S
  put_queue : List Nat
  get_queue : List Nat
deriving DecidableEq

/-- The while-loop body of BaseResource.put: repeatedly examine the head
of the get queue, apply _do_get to it, stop at the first head left
pending, remove each head that resolves.  Returns the final domain
state, the remaining get queue and the resolved requests in order. -/
def cascadeGet {S : Type} (doGet : S → Nat → Option S) :
    S → List Nat → S × List Nat × List Nat
  | s, [] => (s, [], [])
  | s, g :: gs =>
    match doGet s g with
    | Option.none => (s, g :: gs, [])
    | some s' =>
      let r := cascadeGet doGet s' gs
      (r.1, r.2.1, g :: r.2.2)

/-- The while-loop body of BaseResource.get, symmetric over the put
queue. -/
def cascadePut {S : Type} (doPut : S → Nat → Option S) :
    S → List Nat → S × List Nat × List Nat
  | s, [] => (s, [], [])
  | s, p :: ps =>
    match doPut s p with
    | Option.none => (s, p :: ps, [])
    | some s' =>
      let r := cascadePut doPut s' ps
      (r.1, r.2.1, p :: r.2.2)

/-- BaseResource.put: apply _do_put to the new request; if it resolved,
cascade over the get queue; otherwise append the request to the put
queue.  Returns the new resource, whether the put resolved, and the get
requests resolved by the cascade. -/
def BaseResource.put {S : Type} (doPut doGet : S → Nat → Option S)
    (r : BaseResource S) (req : Nat) : BaseResource S × Bool × List Nat :=
  match doPut r.state req with
  | some s' =>
    let c := cascadeGet doGet s' r.get_queue
    (⟨c.1, r.put_queue, c.2.1⟩, true, c.2.2)
  | Option.none => (⟨r.state, r.put_queue ++ [req], r.get_queue⟩, false, [])

/-- BaseResource.get, symmetric to put. -/
def BaseResource.get {S : Type} (doPut doGet : S → Nat → Option S)
    (r : BaseResource S) (req : Nat) : BaseResource S × Bool × List Nat :=
  match doGet r.state req with
  | some s' =>
    let c := cascadePut doPut s' r.put_queue
    (⟨c.1, c.2.1, r.get_queue⟩, true, c.2.2)
  | Option.none => (⟨r.state, r.put_queue, r.get_queue ++ [req]⟩, false, [])

/-- Put.__exit__ / Put.cancel: if the request is still pending, remove it
from the put queue (list.remove drops the first occurrence); a resolved
request leaves the resource untouched. -/
def BaseResource.cancelPut {S : Type} (pending : Nat → Bool)
    (r : BaseResource S) (req : Nat) : BaseResource S :=
  if pending req then { r with put_queue := r.put_queue.erase req } else r

/-- Get.__exit__ / Get.cancel, symmetric to cancelPut. -/
def BaseResource.cancelGet {S : Type} (pending : Nat → Bool)
    (r : BaseResource S) (req : Nat) : BaseResource S :=
  if pending req then { r with get_queue := r.get_queue.erase req } else r

/-- The trivial capacity-1 hooks named by the spec: _do_put succeeds if
the slot is empty, _do_get succeeds if it is occupied. -/
def cap1Put : Bool → Nat → Option Bool :=
  fun s _ => if s then Option.none else some true

/-- See cap1Put. -/
def cap1Get : Bool → Nat → Option Bool :=
  fun s _ => if s then some false else Option.none

/-- A plain already-succeeded event with value 1 and no callbacks. -/
def evPlain1 : EventState :=
  { ok := true, value := some (Val.num 1), defused := false,
    callbacks := some [] }

/-- A plain already-succeeded event with value 2 and no callbacks. -/
def evPlain2 : EventState :=
  { ok := true, value := some (Val.num 2), defused := false,
    callbacks := some [] }

/-- A pending event: no value yet, empty callback list. -/
def evPending : EventState :=
  { ok := false, value := Option.none, defused := false, callbacks := some [] }

/-- A failed, undefused event carrying exception 7, no callbacks. -/
def evFailed : EventState :=
  { ok := false, value := some (Val.err 7), defused := false,
    callbacks := some [] }

/-- An environment with two plain events scheduled at times 1 and 5. -/
def sTwoTimeouts : CoreState :=
  ⟨0, [⟨1, NORMAL, 0, 0⟩, ⟨5, NORMAL, 1, 1⟩], 2, [evPlain1, evPlain2]⟩

/-- An environment with one plain event scheduled at time 1; event 2 is
pending and unscheduled. -/
def sOneTimeout : CoreState :=
  ⟨0, [⟨1, NORMAL, 0, 0⟩], 2, [evPlain1, evPlain2, evPending]⟩

/-- An environment whose only scheduled event (at time 3) has failed. -/
def sFailedHead : CoreState := ⟨0, [⟨3, NORMAL, 0, 0⟩], 1, [evFailed]⟩

/-- An environment whose only scheduled event (at time 4) has failed. -/
def sFailedUntil : CoreState := ⟨0, [⟨4, NORMAL, 0, 0⟩], 1, [evFailed]⟩

/-- An environment with a single plain event scheduled at time 2. -/
def sDetach : CoreState := ⟨0, [⟨2, NORMAL, 0, 0⟩], 1, [evPlain1]⟩

/-- An empty capacity-1 resource after three get requests 1, 2, 3. -/
def cap1AfterGets : BaseResource Bool :=
  (BaseResource.get cap1Put cap1Get
    ((BaseResource.get cap1Put cap1Get
      ((BaseResource.get cap1Put cap1Get ⟨false, [], []⟩ 1).1) 2).1) 3).1

/-- One put request 10 arriving after the three queued gets. -/
def cap1AfterPut : BaseResource Bool × Bool × List Nat :=
  BaseResource.put cap1Put cap1Get cap1AfterGets 10

end Simpy


namespace Simpy

theorem keyLE_refl (a : Entry) : a.keyLE a := by
  unfold Entry.keyLE; omega

theorem keyLE_trans {a b c : Entry} (h1 : a.keyLE b) (h2 : b.keyLE c) :
    a.keyLE c := by
  unfold Entry.keyLE at h1 h2 ⊢; omega

theorem keyLE_total (a b : Entry) : a.keyLE b ∨ b.keyLE a := by
  unfold Entry.keyLE; omega

theorem keyLT_keyLE_asymm {a b : Entry} (h1 : a.keyLT b) (h2 : b.keyLE a) :
    False := by
  unfold Entry.keyLT at h1; unfold Entry.keyLE at h2; omega

theorem keyLT_ne {a b : Entry} (h : a.keyLT b) : a ≠ b := by
  intro he; subst he
  unfold Entry.keyLT at h; omega

theorem keyLE_time {a b : Entry} (h : a.keyLE b) : a.time ≤ b.time := by
  unfold Entry.keyLE at h; omega

theorem popMin_eq_none {q : List Entry} (h : popMin q = Option.none) :
    q = [] := by
  cases q with
  | nil => rfl
  | cons e q =>
    cases hq : popMin q with
    | none => simp [popMin, hq] at h
    | some p =>
      obtain ⟨m, q'⟩ := p
      simp only [popMin, hq] at h
      split at h <;> simp at h

theorem popMin_perm :
    ∀ {q : List Entry} {m : Entry} {q' : List Entry},
      popMin q = some (m, q') → q.Perm (m :: q') := by
  intro q
  induction q with
  | nil => intro m q' h; simp [popMin] at h
  | cons e q ih =>
    intro m q' h
    cases hq : popMin q with
    | none =>
      simp only [popMin, hq, Option.some.injEq, Prod.mk.injEq] at h
      obtain ⟨rfl, rfl⟩ := h
      rw [popMin_eq_none hq]
    | some p =>
      obtain ⟨m0, q0'⟩ := p
      simp only [popMin, hq] at h
      split at h
      · simp only [Option.some.injEq, Prod.mk.injEq] at h
        obtain ⟨rfl, rfl⟩ := h
        exact List.Perm.refl _
      · simp only [Option.some.injEq, Prod.mk.injEq] at h
        obtain ⟨rfl, rfl⟩ := h
        exact (List.Perm.cons e (ih hq)).trans (List.Perm.swap _ _ _)

theorem popMin_min :
    ∀ {q : List Entry} {m : Entry} {q' : List Entry},
      popMin q = some (m, q') → ∀ x ∈ q, m.keyLE x := by
  intro q
  induction q with
  | nil => intro m q' h; simp [popMin] at h
  | cons e q ih =>
    intro m q' h x hx
    cases hq : popMin q with
    | none =>
      simp only [popMin, hq, Option.some.injEq, Prod.mk.injEq] at h
      obtain ⟨rfl, rfl⟩ := h
      rw [popMin_eq_none hq] at hx
      simp only [List.mem_singleton] at hx
      subst hx
      exact keyLE_refl x
    | some p =>
      obtain ⟨m0, q0'⟩ := p
      simp only [popMin, hq] at h
      split at h
      · rename_i hle
        simp only [Option.some.injEq, Prod.mk.injEq] at h
        obtain ⟨rfl, rfl⟩ := h
        rcases List.mem_cons.mp hx with h' | h'
        · subst h'; exact keyLE_refl x
        · exact keyLE_trans hle (ih hq x h')
      · rename_i hle
        simp only [Option.some.injEq, Prod.mk.injEq] at h
        obtain ⟨rfl, rfl⟩ := h
        rcases List.mem_cons.mp hx with h' | h'
        · subst h'
          rcases keyLE_total x m0 with h'' | h''
          · exact absurd h'' hle
          · exact h''
        · exact ih hq x h'

theorem popMin_length {q : List Entry} {m : Entry} {q' : List Entry}
    (h : popMin q = some (m, q')) : q'.length + 1 = q.length := by
  have := (popMin_perm h).length_eq
  simp only [List.length_cons] at this
  omega

theorem popMin_mem {q : List Entry} {m : Entry} {q' : List Entry}
    (h : popMin q = some (m, q')) {x : Entry} (hx : x ∈ q) :
    x = m ∨ x ∈ q' := by
  have := (popMin_perm h).mem_iff.mp hx
  simpa using this

theorem popMin_mem_rev {q : List Entry} {m : Entry} {q' : List Entry}
    (h : popMin q = some (m, q')) {x : Entry} (hx : x ∈ q') : x ∈ q :=
  (popMin_perm h).mem_iff.mpr (List.mem_cons_of_mem m hx)

theorem popMin_isSome {q : List Entry} (h : q ≠ []) :
    ∃ m q', popMin q = some (m, q') := by
  cases hq : popMin q with
  | none => exact absurd (popMin_eq_none hq) h
  | some p =>
    obtain ⟨m, q'⟩ := p
    exact ⟨m, q', rfl⟩

theorem listGetD_set_self {α : Type} {l : List α} {i : Nat} (v d : α)
    (h : i < l.length) : (l.set i v).getD i d = v := by
  induction l generalizing i with
  | nil => simp at h
  | cons a l ih =>
    cases i with
    | zero => rfl
    | succ i =>
      simp only [List.length_cons, Nat.succ_lt_succ_iff] at h
      simpa [List.set, List.getD] using ih h

theorem listGetD_set_ne {α : Type} {l : List α} {i j : Nat} (v d : α)
    (h : i ≠ j) : (l.set i v).getD j d = l.getD j d := by
  induction l generalizing i j with
  | nil => simp
  | cons a l ih =>
    cases i with
    | zero =>
      cases j with
      | zero => exact absurd rfl h
      | succ j => rfl
    | succ i =>
      cases j with
      | zero => rfl
      | succ j =>
        have hij : i ≠ j := by omega
        simpa [List.set, List.getD] using ih hij

theorem listGetD_append_left {α : Type} {l l2 : List α} {i : Nat} (d : α)
    (h : i < l.length) : (l ++ l2).getD i d = l.getD i d := by
  induction l generalizing i with
  | nil => simp at h
  | cons a l ih =>
    cases i with
    | zero => rfl
    | succ i =>
      simp only [List.length_cons, Nat.succ_lt_succ_iff] at h
      simpa [List.getD] using ih h

theorem listGetD_append_length {α : Type} {l : List α} (x d : α) :
    (l ++ [x]).getD l.length d = x := by
  induction l with
  | nil => rfl
  | cons a l ih => exact ih

end Simpy

namespace Simpy

/-! ## Frame lemmas: what the pieces of step leave unchanged -/

theorem getEvent_setEvent_self {s : CoreState} {i : Nat} (ev : EventState)
    (h : i < s.events.length) : getEvent (setEvent s i ev) i = ev :=
  listGetD_set_self ev default h

theorem getEvent_setEvent_ne {s : CoreState} {i j : Nat} (ev : EventState)
    (h : i ≠ j) : getEvent (setEvent s i ev) j = getEvent s j :=
  listGetD_set_ne ev default h

theorem getEvent_default {s : CoreState} {i : Nat}
    (h : s.events.length ≤ i) : getEvent s i = default := by
  unfold getEvent
  exact List.getD_eq_default _ _ h

theorem lt_length_of_ok {s : CoreState} {i : Nat}
    (h : (getEvent s i).ok = true) : i < s.events.length := by
  by_contra hlt
  rw [getEvent_default (by omega)] at h
  simp [default] at h

theorem lt_length_of_callbacks {s : CoreState} {i : Nat} {l : List Callback}
    (h : (getEvent s i).callbacks = some l) : i < s.events.length := by
  by_contra hlt
  rw [getEvent_default (by omega)] at h
  simp [default] at h

theorem fireState_now (s : CoreState) (e : Entry) (q' : List Entry) :
    (fireState s e q').now = e.time := rfl

theorem fireState_queue (s : CoreState) (e : Entry) (q' : List Entry) :
    (fireState s e q').queue = q' := rfl

theorem fireState_seq (s : CoreState) (e : Entry) (q' : List Entry) :
    (fireState s e q').seq = s.seq := rfl

theorem fireState_events_length (s : CoreState) (e : Entry) (q' : List Entry) :
    (fireState s e q').events.length = s.events.length := by
  simp [fireState, setEvent]

theorem getEvent_fireState_self {s : CoreState} {e : Entry} (q' : List Entry)
    (h : e.eid < s.events.length) :
    getEvent (fireState s e q') e.eid =
      { getEvent s e.eid with callbacks := Option.none } :=
  getEvent_setEvent_self _ h

theorem getEvent_fireState_ne {s : CoreState} {e : Entry} (q' : List Entry)
    {j : Nat} (h : e.eid ≠ j) :
    getEvent (fireState s e q') j = getEvent s j :=
  getEvent_setEvent_ne _ h

theorem runCallback_frame (c : Callback) (f : Nat) (s : CoreState) :
    ((runCallback c f s).st).now = s.now ∧
    ((runCallback c f s).st).queue = s.queue ∧
    ((runCallback c f s).st).seq = s.seq ∧
    ((runCallback c f s).st).events.length = s.events.length := by
  cases c with
  | nop => exact ⟨rfl, rfl, rfl, rfl⟩
  | stopSim =>
    simp only [runCallback]
    cases hv : (getEvent s f).value with
    | none => exact ⟨rfl, rfl, rfl, rfl⟩
    | some v =>
      cases hok : (getEvent s f).ok <;> simp [hok, CbResult.st]
  | registerStop tgt =>
    simp only [runCallback]
    cases hc : (getEvent s tgt).callbacks with
    | none => exact ⟨rfl, rfl, rfl, rfl⟩
    | some l =>
      refine ⟨rfl, rfl, rfl, ?_⟩
      simp [CbResult.st, setEvent]

theorem runCallbacks_frame (cs : List Callback) (f : Nat) (s : CoreState) :
    ((runCallbacks cs f s).st).now = s.now ∧
    ((runCallbacks cs f s).st).queue = s.queue ∧
    ((runCallbacks cs f s).st).seq = s.seq ∧
    ((runCallbacks cs f s).st).events.length = s.events.length := by
  induction cs generalizing s with
  | nil => exact ⟨rfl, rfl, rfl, rfl⟩
  | cons c rest ih =>
    simp only [runCallbacks]
    cases hr : runCallback c f s with
    | ok s' =>
      have hc := runCallback_frame c f s
      rw [hr] at hc
      obtain ⟨h1, h2, h3, h4⟩ := hc
      obtain ⟨i1, i2, i3, i4⟩ := ih s'
      exact ⟨i1.trans h1, i2.trans h2, i3.trans h3, i4.trans h4⟩
    | raised r s' =>
      have hc := runCallback_frame c f s
      rw [hr] at hc
      exact hc

theorem runCallbacks_nops {l : List Callback} (h : ∀ c ∈ l, c = Callback.nop)
    (rest : List Callback) (f : Nat) (s : CoreState) :
    runCallbacks (l ++ rest) f s = runCallbacks rest f s := by
  induction l with
  | nil => rfl
  | cons c l ih =>
    have hc := h c (by simp)
    subst hc
    exact ih (fun c hc => h c (by simp [hc]))

end Simpy

namespace Simpy

/-! ## Characterising step -/

theorem step_state_props {s s' : CoreState}
    (h : (step s).state? = some s') :
    ∃ e q', popMin s.queue = some (e, q') ∧ s'.now = e.time ∧
      s'.queue = q' ∧ s'.seq = s.seq ∧
      s'.events.length = s.events.length := by
  unfold step at h
  cases hp : popMin s.queue with
  | none => rw [hp] at h; simp [StepResult.state?] at h
  | some p =>
    obtain ⟨e, q'⟩ := p
    rw [hp] at h
    dsimp only at h
    refine ⟨e, q', rfl, ?_⟩
    cases hc : (getEvent s e.eid).callbacks with
    | none =>
      rw [hc] at h
      simp only [StepResult.state?, Option.some.injEq] at h
      subst h
      exact ⟨rfl, rfl, rfl, rfl⟩
    | some cbs =>
      rw [hc] at h
      dsimp only at h
      have hfr := runCallbacks_frame cbs e.eid (fireState s e q')
      cases hr : runCallbacks cbs e.eid (fireState s e q') with
      | ok s3 =>
        rw [hr] at h hfr
        dsimp only at h
        simp only [CbResult.st] at hfr
        obtain ⟨f1, f2, f3, f4⟩ := hfr
        rw [fireState_now] at f1
        rw [fireState_queue] at f2
        rw [fireState_seq] at f3
        rw [fireState_events_length] at f4
        split at h <;>
          (simp only [StepResult.state?, Option.some.injEq] at h; subst h;
           exact ⟨f1, f2, f3, f4⟩)
      | raised r s3 =>
        rw [hr] at h hfr
        simp only [CbResult.st] at hfr
        obtain ⟨f1, f2, f3, f4⟩ := hfr
        rw [fireState_now] at f1
        rw [fireState_queue] at f2
        rw [fireState_seq] at f3
        rw [fireState_events_length] at f4
        cases r with
        | stop v =>
          dsimp only at h
          simp only [StepResult.state?, Option.some.injEq] at h
          subst h
          exact ⟨f1, f2, f3, f4⟩
        | exc v =>
          dsimp only at h
          simp only [StepResult.state?, Option.some.injEq] at h
          subst h
          exact ⟨f1, f2, f3, f4⟩

theorem step_plain {s : CoreState} {m : Entry} {q' : List Entry}
    (hp : popMin s.queue = some (m, q'))
    (hm : plainEv (getEvent s m.eid)) :
    step s = .ok (fireState s m q') := by
  obtain ⟨hok, hcb⟩ := hm
  have hlt : m.eid < s.events.length := lt_length_of_ok hok
  unfold step
  rw [hp]
  dsimp only
  rw [hcb]
  dsimp only
  simp only [runCallbacks]
  rw [if_neg]
  rw [getEvent_fireState_self q' hlt]
  simp [hok]

theorem step_empty {s : CoreState} (h : s.queue = []) :
    step s = .emptySchedule := by
  unfold step
  rw [h]
  rfl

end Simpy

namespace Simpy

theorem runLoopF_succ (n : Nat) (untilE : Option Nat) (s : CoreState) :
    runLoopF (n + 1) untilE s = loopOut untilE s (step s) (runLoopF n untilE) :=
  rfl

theorem nodup_eid_pop {q : List Entry} {m : Entry} {q' : List Entry}
    (hp : popMin q = some (m, q')) (hnd : (q.map Entry.eid).Nodup) :
    m.eid ∉ q'.map Entry.eid ∧ (q'.map Entry.eid).Nodup := by
  have hperm := (popMin_perm hp).map Entry.eid
  have := (List.Perm.nodup_iff hperm).mp hnd
  simp only [List.map_cons, List.nodup_cons] at this
  exact this

theorem eq_of_eid_eq {q : List Entry} (hnd : (q.map Entry.eid).Nodup)
    {a b : Entry} (ha : a ∈ q) (hb : b ∈ q) (h : a.eid = b.eid) : a = b :=
  List.inj_on_of_nodup_map hnd ha hb h

/-- Workhorse: a run loop whose queue contains the until entry, whose
until event carries only no-op callbacks before the appended
StopSimulation.callback, and whose other queued events are plain,
stops the moment the until entry is popped: with the until event's
value v, it returns v if the event is ok and propagates v as a failure
otherwise.  Entries beyond the until entry's key survive. -/
theorem runLoopF_fires (n : Nat) :
    ∀ (s : CoreState) (untilE : Option Nat) (uid : Nat) (u : Entry)
      (b df : Bool) (v : Val) (l0 : List Callback),
    s.queue.length ≤ n → u ∈ s.queue → u.eid = uid →
    getEvent s uid = ⟨b, some v, df, some (l0 ++ [Callback.stopSim])⟩ →
    (∀ c ∈ l0, c = Callback.nop) →
    (∀ x ∈ s.queue, x.eid ≠ uid → plainEv (getEvent s x.eid)) →
    (s.queue.map Entry.eid).Nodup →
    ∃ s', runLoopF n untilE s =
        (if b then RunResult.value v s' else RunResult.failure v s') ∧
      s'.now = u.time ∧ s'.events.length = s.events.length ∧
      (∀ x ∈ s.queue, u.keyLT x → x ∈ s'.queue) := by
  induction n with
  | zero =>
    intro s untilE uid u b df v l0 hn hu hueid huev hl0 hplain hnd
    have : s.queue = [] := List.eq_nil_of_length_eq_zero (by omega)
    rw [this] at hu
    exact absurd hu (List.not_mem_nil u)
  | succ n ih =>
    intro s untilE uid u b df v l0 hn hu hueid huev hl0 hplain hnd
    have hqne : s.queue ≠ [] := by
      intro h; rw [h] at hu; exact absurd hu (List.not_mem_nil u)
    obtain ⟨m, q', hp⟩ := popMin_isSome hqne
    have hmmem : m ∈ s.queue :=
      (popMin_perm hp).mem_iff.mpr (List.mem_cons_self m q')
    by_cases hmeid : m.eid = uid
    · -- the until entry itself is popped: the stop callback fires
      have hmu : m = u := eq_of_eid_eq hnd hmmem hu (by rw [hmeid, hueid])
      subst hmu
      have hlt : uid < s.events.length := lt_length_of_callbacks (by rw [huev])
      have hfs : getEvent (fireState s m q') uid =
          { ok := b, value := some v, defused := df,
            callbacks := Option.none } := by
        rw [← hmeid]
        rw [getEvent_fireState_self q' (by rw [hmeid]; exact hlt)]
        rw [hmeid, huev]
      have hstep : step s =
          (if b then StepResult.stopSim v (fireState s m q')
           else StepResult.failure v (fireState s m q')) := by
        unfold step
        rw [hp]
        dsimp only
        rw [hmeid, huev]
        dsimp only
        rw [runCallbacks_nops hl0]
        simp only [runCallbacks, runCallback]
        rw [hfs]
        cases b <;> rfl
      refine ⟨fireState s m q', ?_, rfl, fireState_events_length s m q', ?_⟩
      · rw [runLoopF_succ, hstep]
        cases b <;> rfl
      · intro x hx hkx
        rcases popMin_mem hp hx with rfl | hx'
        · exact absurd rfl (keyLT_ne hkx)
        · exact hx'
    · -- a plain event is popped; recurse
      have hplm := hplain m hmmem hmeid
      have hstep := step_plain hp hplm
      have hnd' := nodup_eid_pop hp hnd
      have hq'len : q'.length + 1 = s.queue.length := popMin_length hp
      have humem' : u ∈ q' := by
        rcases popMin_mem hp hu with rfl | h
        · exact absurd hueid hmeid
        · exact h
      obtain ⟨s', hrun, hnow, hlen, hrem⟩ :=
        ih (fireState s m q') untilE uid u b df v l0
          (by rw [fireState_queue]; omega)
          (by rw [fireState_queue]; exact humem')
          hueid
          (by rw [getEvent_fireState_ne q' hmeid]; exact huev)
          hl0
          (by
            rw [fireState_queue]
            intro x hx hxuid
            have hxq : x ∈ s.queue := popMin_mem_rev hp hx
            have hxm : x.eid ≠ m.eid := by
              intro hcon
              exact hnd'.1 (hcon ▸ List.mem_map_of_mem Entry.eid hx)
            rw [getEvent_fireState_ne q' (fun hh => hxm hh.symm)]
            exact hplain x hxq hxuid)
          (by rw [fireState_queue]; exact hnd'.2)
      refine ⟨s', ?_, hnow, ?_, ?_⟩
      · rw [runLoopF_succ, hstep]
        exact hrun
      · rw [hlen, fireState_events_length]
      · intro x hx hkx
        rcases popMin_mem hp hx with rfl | hx'
        · exact absurd (popMin_min hp u hu) (fun hle => keyLT_keyLE_asymm hkx hle)
        · exact hrem x (by rw [fireState_queue]; exact hx') hkx

end Simpy

namespace Simpy

theorem runLoopF_zero (untilE : Option Nat) (s : CoreState) :
    runLoopF 0 untilE s =
      loopOut untilE s (step s) (fun s' => RunResult.normal s') := rfl

/-- Workhorse: a run loop over a queue of plain events, none of which is
the until event, drains the queue and ends in the EmptySchedule branch:
normal termination without an until, the RuntimeError with one (the
until event's state is untouched). -/
theorem runLoopF_drains (n : Nat) :
    ∀ (s : CoreState) (untilE : Option Nat),
    s.queue.length ≤ n →
    (∀ x ∈ s.queue, plainEv (getEvent s x.eid)) →
    (s.queue.map Entry.eid).Nodup →
    (∀ uid, untilE = some uid → ∀ x ∈ s.queue, x.eid ≠ uid) →
    ∃ s', s'.queue = [] ∧
      (∀ uid, untilE = some uid → getEvent s' uid = getEvent s uid) ∧
      runLoopF n untilE s =
        (match untilE with
         | Option.none => RunResult.normal s'
         | some uid =>
           if (getEvent s' uid).value.isSome then RunResult.assertFail s'
           else RunResult.runtimeError s') := by
  induction n with
  | zero =>
    intro s untilE hn hplain hnd huid
    have hq : s.queue = [] := List.eq_nil_of_length_eq_zero (by omega)
    refine ⟨s, hq, fun _ _ => rfl, ?_⟩
    rw [runLoopF_zero, step_empty hq]
    cases untilE <;> rfl
  | succ n ih =>
    intro s untilE hn hplain hnd huid
    by_cases hq : s.queue = []
    · refine ⟨s, hq, fun _ _ => rfl, ?_⟩
      rw [runLoopF_succ, step_empty hq]
      cases untilE <;> rfl
    · obtain ⟨m, q', hp⟩ := popMin_isSome hq
      have hmmem : m ∈ s.queue :=
        (popMin_perm hp).mem_iff.mpr (List.mem_cons_self m q')
      have hplm := hplain m hmmem
      have hstep := step_plain hp hplm
      have hnd' := nodup_eid_pop hp hnd
      have hq'len : q'.length + 1 = s.queue.length := popMin_length hp
      obtain ⟨s', hsq, hsget, hrun⟩ :=
        ih (fireState s m q') untilE
          (by rw [fireState_queue]; omega)
          (by
            rw [fireState_queue]
            intro x hx
            have hxq : x ∈ s.queue := popMin_mem_rev hp hx
            have hxm : x.eid ≠ m.eid := by
              intro hcon
              exact hnd'.1 (hcon ▸ List.mem_map_of_mem Entry.eid hx)
            rw [getEvent_fireState_ne q' (fun hh => hxm hh.symm)]
            exact hplain x hxq)
          (by rw [fireState_queue]; exact hnd'.2)
          (by
            rw [fireState_queue]
            intro uid huidE x hx
            exact huid uid huidE x (popMin_mem_rev hp hx))
      refine ⟨s', hsq, ?_, ?_⟩
      · intro uid huidE
        rw [hsget uid huidE]
        exact getEvent_fireState_ne q' (huid uid huidE m hmmem)
      · rw [runLoopF_succ, hstep]
        exact hrun

end Simpy

namespace Simpy

/-! ## Invariants along a sequence of schedule/step calls -/

/-- Every queue entry of a state reached by schedule calls with
non-negative delays lies at or after the current time. -/
theorem exec_time_inv :
    ∀ (ops : List Op) (s : CoreState),
    (∀ op ∈ ops, 0 ≤ op.delay) →
    (∀ x ∈ s.queue, s.now ≤ x.time) →
    ∀ x ∈ (exec s ops).queue, (exec s ops).now ≤ x.time := by
  intro ops
  induction ops with
  | nil => intro s _ hinv; exact hinv
  | cons op ops ih =>
    intro s hd hinv
    cases op with
    | sched e p d =>
      refine ih (schedule s e p d) (fun o ho => hd o (List.mem_cons_of_mem _ ho)) ?_
      intro x hx
      simp only [schedule, List.mem_append, List.mem_singleton] at hx
      rcases hx with hx | rfl
      · exact hinv x hx
      · have : (0 : Int) ≤ d := hd (Op.sched e p d) (List.mem_cons_self _ _)
        simp only [schedule]
        omega
    | step =>
      refine ih (stepKeep s) (fun o ho => hd o (List.mem_cons_of_mem _ ho)) ?_
      unfold stepKeep
      cases hs : (step s).state? with
      | none => simpa using hinv
      | some s' =>
        obtain ⟨e, q', hp, hnow, hque, _, _⟩ := step_state_props hs
        simp only [Option.getD_some]
        intro x hx
        rw [hque] at hx
        rw [hnow]
        exact keyLE_time (popMin_min hp x (popMin_mem_rev hp hx))

/-- Every queue entry of a reachable state carries a sequence number
strictly below the counter, and the queued sequence numbers are
distinct. -/
theorem exec_seq_inv :
    ∀ (ops : List Op) (s : CoreState),
    (∀ x ∈ s.queue, x.seq < s.seq) →
    ∀ x ∈ (exec s ops).queue, x.seq < (exec s ops).seq := by
  intro ops
  induction ops with
  | nil => intro s hinv; exact hinv
  | cons op ops ih =>
    intro s hinv
    cases op with
    | sched e p d =>
      refine ih (schedule s e p d) ?_
      intro x hx
      simp only [schedule, List.mem_append, List.mem_singleton] at hx
      simp only [schedule]
      rcases hx with hx | rfl
      · have := hinv x hx; omega
      · dsimp only; omega
    | step =>
      refine ih (stepKeep s) ?_
      unfold stepKeep
      cases hs : (step s).state? with
      | none => simpa using hinv
      | some s' =>
        obtain ⟨e, q', hp, _, hque, hseq, _⟩ := step_state_props hs
        simp only [Option.getD_some]
        intro x hx
        rw [hque] at hx
        rw [hseq]
        exact hinv x (popMin_mem_rev hp hx)

end Simpy

namespace Simpy

/-! ## The cascade loops of the resource protocol -/

/-- The get-queue after a cascade is a suffix of the original queue: the
resolved prefix is removed in order, and the head left behind (if any)
is pending under the final domain state. -/
theorem cascadeGet_spec {S : Type} (doGet : S → Nat → Option S) :
    ∀ (gq : List Nat) (s : S),
    gq = (cascadeGet doGet s gq).2.2 ++ (cascadeGet doGet s gq).2.1 ∧
    (∀ h t, (cascadeGet doGet s gq).2.1 = h :: t →
       doGet (cascadeGet doGet s gq).1 h = Option.none) := by
  intro gq
  induction gq with
  | nil =>
    intro s
    exact ⟨rfl, by intro h t ht; simp [cascadeGet] at ht⟩
  | cons g gs ih =>
    intro s
    cases hdo : doGet s g with
    | none =>
      constructor
      · simp [cascadeGet, hdo]
      · intro h t ht
        simp only [cascadeGet, hdo] at ht ⊢
        injection ht with h1 h2
        subst h1
        exact hdo
    | some s' =>
      obtain ⟨ih1, ih2⟩ := ih s'
      constructor
      · simp only [cascadeGet, hdo, List.cons_append]
        rw [← ih1]
      · intro h t ht
        simp only [cascadeGet, hdo] at ht ⊢
        exact ih2 h t ht

/-- Symmetric statement for the put-queue cascade performed by get. -/
theorem cascadePut_spec {S : Type} (doPut : S → Nat → Option S) :
    ∀ (pq : List Nat) (s : S),
    pq = (cascadePut doPut s pq).2.2 ++ (cascadePut doPut s pq).2.1 ∧
    (∀ h t, (cascadePut doPut s pq).2.1 = h :: t →
       doPut (cascadePut doPut s pq).1 h = Option.none) := by
  intro pq
  induction pq with
  | nil =>
    intro s
    exact ⟨rfl, by intro h t ht; simp [cascadePut] at ht⟩
  | cons p ps ih =>
    intro s
    cases hdo : doPut s p with
    | none =>
      constructor
      · simp [cascadePut, hdo]
      · intro h t ht
        simp only [cascadePut, hdo] at ht ⊢
        injection ht with h1 h2
        subst h1
        exact hdo
    | some s' =>
      obtain ⟨ih1, ih2⟩ := ih s'
      constructor
      · simp only [cascadePut, hdo, List.cons_append]
        rw [← ih1]
      · intro h t ht
        simp only [cascadePut, hdo] at ht ⊢
        exact ih2 h t ht

end Simpy

namespace Simpy

/-! ## Claim theorems -/

/-- C7 counterexample: a schedule call with delay -1 is not rejected:
no error is raised and the event IS inserted into the queue, at time
now + delay = -1, refuting the claim that a negative delay is reported
as an error and the event not inserted. -/
theorem schedule_accepts_negative_delay :
    (schedule (initState 0 []) 0 NORMAL (-1)).queue =
      [⟨-1, NORMAL, 0, 0⟩] := rfl

/-- C7 (amended): Environment.schedule performs no validation of delay:
every call, including one with delay < 0, appends the entry
(now + delay, priority, sequence, event) to the queue, and a negative
delay places the entry strictly before the current time. -/
theorem schedule_inserts_any_delay (s : CoreState) (eid p : Nat) (d : Int)
    (hd : d < 0) :
    (schedule s eid p d).queue = s.queue ++ [⟨s.now + d, p, s.seq, eid⟩] ∧
    s.now + d < s.now :=
  ⟨rfl, by omega⟩

/-- Witness for the amended C7 at a concrete call. -/
theorem schedule_inserts_any_delay_witness :
    (schedule (initState 0 []) 0 NORMAL (-1)).queue =
      [] ++ [⟨0 + (-1), NORMAL, 0, 0⟩] ∧ (0 : Int) + (-1) < 0 :=
  schedule_inserts_any_delay (initState 0 []) 0 NORMAL (-1) (by decide)

/-- C1 counterexample: schedule is called with delay 5, one step brings
now to 5; a further schedule call with delay -3 and one more step bring
now down to 2: simulation time is not monotone over arbitrary schedule
sequences, because schedule accepts negative delays. -/
theorem now_decreases_after_negative_delay :
    (exec (initState 0 [evPlain1, evPlain2])
        [Op.sched 0 NORMAL 5, Op.step]).now = 5 ∧
    (exec (initState 0 [evPlain1, evPlain2])
        [Op.sched 0 NORMAL 5, Op.step, Op.sched 1 NORMAL (-3), Op.step]).now
      = 2 ∧
    (exec (initState 0 [evPlain1, evPlain2])
        [Op.sched 0 NORMAL 5, Op.step, Op.sched 1 NORMAL (-3), Op.step]).now
      < (exec (initState 0 [evPlain1, evPlain2])
          [Op.sched 0 NORMAL 5, Op.step]).now := by
  refine ⟨?_, ?_, ?_⟩ <;> decide

/-- C1 (amended): for every sequence of schedule/step calls whose
schedule delays are all non-negative, at the state reached, step pops
the queue entry with lexicographically minimal
(time, priority, sequence) key among all queued entries, sets now to
that entry's time and removes it from the queue, and now never
decreases across the step. -/
theorem step_pops_lex_min_and_now_monotone
    (t : Int) (evs : List EventState) (ops : List Op) (s : CoreState)
    (hops : ∀ op ∈ ops, 0 ≤ op.delay)
    (hs : s = exec (initState t evs) ops)
    (e : Entry) (q' : List Entry)
    (hp : popMin s.queue = some (e, q')) :
    (∀ x ∈ s.queue, e.keyLE x) ∧
    s.now ≤ e.time ∧
    (∀ s', (step s).state? = some s' →
       s'.now = e.time ∧ s'.queue = q' ∧ s.now ≤ s'.now) := by
  have hinv : ∀ x ∈ s.queue, s.now ≤ x.time := by
    subst hs
    exact exec_time_inv ops (initState t evs) hops
      (by intro x hx; simp [initState] at hx)
  have hmin := popMin_min hp
  have hmem : e ∈ s.queue :=
    (popMin_perm hp).mem_iff.mpr (List.mem_cons_self e q')
  have hte : s.now ≤ e.time := hinv e hmem
  refine ⟨hmin, hte, ?_⟩
  intro s' hs'
  obtain ⟨e2, q2', hp2, hnow, hque, _, _⟩ := step_state_props hs'
  rw [hp] at hp2
  injection hp2 with hp2
  injection hp2 with he hq
  subst he; subst hq
  exact ⟨hnow, hque, by omega⟩

/-- Witness for the amended C1: two non-negative-delay schedule calls,
then the entry at time 1 (not the first-scheduled one at time 5) is the
popped minimum and step advances now to 1. -/
theorem step_pops_lex_min_and_now_monotone_witness :
    (∀ x ∈ (exec (initState 0 [evPlain1, evPlain2])
        [Op.sched 0 NORMAL 5, Op.sched 1 NORMAL 1]).queue,
      Entry.keyLE ⟨1, NORMAL, 1, 1⟩ x) ∧
    (exec (initState 0 [evPlain1, evPlain2])
        [Op.sched 0 NORMAL 5, Op.sched 1 NORMAL 1]).now ≤ 1 ∧
    (∀ s', (step (exec (initState 0 [evPlain1, evPlain2])
        [Op.sched 0 NORMAL 5, Op.sched 1 NORMAL 1])).state? = some s' →
       s'.now = 1 ∧ s'.queue = [⟨5, NORMAL, 0, 0⟩] ∧
       (exec (initState 0 [evPlain1, evPlain2])
          [Op.sched 0 NORMAL 5, Op.sched 1 NORMAL 1]).now ≤ s'.now) :=
  step_pops_lex_min_and_now_monotone 0 [evPlain1, evPlain2]
    [Op.sched 0 NORMAL 5, Op.sched 1 NORMAL 1] _ (by decide) rfl
    ⟨1, NORMAL, 1, 1⟩ [⟨5, NORMAL, 0, 0⟩] (by decide)

/-- C2: schedule stamps each entry with the current value of the
insertion counter and increments the counter, so sequence numbers
strictly increase across schedule calls (every already queued entry of
a reachable state has a smaller sequence number than the counter); and
among two queued entries with equal time and equal priority, step can
never pop the one with the larger sequence number while the other is
still queued: the first-scheduled fires first, deterministically. -/
theorem fifo_same_time_priority :
    (∀ (s : CoreState) (e p : Nat) (d : Int),
       (schedule s e p d).queue = s.queue ++ [⟨s.now + d, p, s.seq, e⟩] ∧
       (schedule s e p d).seq = s.seq + 1) ∧
    (∀ (t : Int) (evs : List EventState) (ops : List Op),
       ∀ x ∈ (exec (initState t evs) ops).queue,
         x.seq < (exec (initState t evs) ops).seq) ∧
    (∀ (s : CoreState) (a b : Entry) (q' : List Entry),
       a ∈ s.queue → b ∈ s.queue → a.time = b.time → a.prio = b.prio →
       a.seq < b.seq → popMin s.queue ≠ some (b, q')) := by
  refine ⟨fun s e p d => ⟨rfl, rfl⟩, ?_, ?_⟩
  · intro t evs ops
    exact exec_seq_inv ops (initState t evs)
      (by intro x hx; simp [initState] at hx)
  · intro s a b q' ha hb ht hpr hseq hpop
    have hba : b.keyLE a := popMin_min hpop a ha
    have hab : a.keyLT b := by unfold Entry.keyLT; omega
    exact keyLT_keyLE_asymm hab hba

/-- Witness for C2: with two entries at equal time 5 and equal priority,
popMin never returns the one with sequence number 1 while the
sequence-0 entry is queued. -/
theorem fifo_same_time_priority_witness :
    popMin (⟨0, [⟨5, NORMAL, 0, 0⟩, ⟨5, NORMAL, 1, 1⟩], 2,
        [evPlain1, evPlain2]⟩ : CoreState).queue ≠
      some (⟨5, NORMAL, 1, 1⟩, [⟨5, NORMAL, 0, 0⟩]) :=
  fifo_same_time_priority.2.2
    ⟨0, [⟨5, NORMAL, 0, 0⟩, ⟨5, NORMAL, 1, 1⟩], 2, [evPlain1, evPlain2]⟩
    ⟨5, NORMAL, 0, 0⟩ ⟨5, NORMAL, 1, 1⟩ [⟨5, NORMAL, 0, 0⟩]
    (by decide) (by decide) rfl rfl (by decide)

end Simpy

namespace Simpy

/-- C5: when step pops an event whose callbacks run to completion, the
post-callback disposition decides the outcome: a failed (ok = false)
event that is not defused makes step raise (a copy of) the event's
failure value after the callbacks have been invoked; an ok or defused
event makes step return normally. -/
theorem step_failure_propagation (s : CoreState) (e : Entry)
    (q' : List Entry) (cbs : List Callback) (s3 : CoreState)
    (hpop : popMin s.queue = some (e, q'))
    (hcb : (getEvent s e.eid).callbacks = some cbs)
    (hrun : runCallbacks cbs e.eid (fireState s e q') = CbResult.ok s3) :
    ((getEvent s3 e.eid).ok = false ∧ (getEvent s3 e.eid).defused = false →
       step s = StepResult.failure
         ((getEvent s3 e.eid).value.getD Val.attrErr) s3) ∧
    ((getEvent s3 e.eid).ok = true ∨ (getEvent s3 e.eid).defused = true →
       step s = StepResult.ok s3) := by
  constructor
  · intro hcond
    unfold step
    rw [hpop]
    dsimp only
    rw [hcb]
    dsimp only
    rw [hrun]
    dsimp only
    rw [if_pos hcond]
  · intro hcond
    unfold step
    rw [hpop]
    dsimp only
    rw [hcb]
    dsimp only
    rw [hrun]
    dsimp only
    rw [if_neg (by rcases hcond with h | h <;> simp [h])]

/-- Witness for C5: a popped failed undefused event makes step raise
its failure value err 7. -/
theorem step_failure_propagation_witness :
    step sFailedHead =
      StepResult.failure (Val.err 7)
        (fireState sFailedHead ⟨3, NORMAL, 0, 0⟩ []) :=
  (step_failure_propagation sFailedHead ⟨3, NORMAL, 0, 0⟩ [] []
      (fireState sFailedHead ⟨3, NORMAL, 0, 0⟩ [])
      (by decide) (by decide) rfl).1 (by decide)

/-- C3: when a put request is resolved immediately by the _do_put hook,
put cascades over the get queue: the resolved get requests form a
prefix, removed in arrival order, the remaining get queue is the
corresponding suffix whose head (if any) is left pending by _do_get
under the final state, and the put queue is untouched; a put left
pending is appended to the put queue.  get behaves symmetrically over
the put queue.  Concretely, on a capacity-1 resource, three queued gets
followed by one put resolve exactly the first get, leaving gets 2 and 3
pending in their original order. -/
theorem put_get_cascade_fifo :
    (∀ (S : Type) (doPut doGet : S → Nat → Option S) (r : BaseResource S)
       (req : Nat) (r' : BaseResource S) (res : List Nat),
       BaseResource.put doPut doGet r req = (r', true, res) →
       r.get_queue = res ++ r'.get_queue ∧
       (∀ h t, r'.get_queue = h :: t → doGet r'.state h = Option.none) ∧
       r'.put_queue = r.put_queue) ∧
    (∀ (S : Type) (doPut doGet : S → Nat → Option S) (r : BaseResource S)
       (req : Nat),
       doPut r.state req = Option.none →
       BaseResource.put doPut doGet r req =
         (⟨r.state, r.put_queue ++ [req], r.get_queue⟩, false, [])) ∧
    (∀ (S : Type) (doPut doGet : S → Nat → Option S) (r : BaseResource S)
       (req : Nat) (r' : BaseResource S) (res : List Nat),
       BaseResource.get doPut doGet r req = (r', true, res) →
       r.put_queue = res ++ r'.put_queue ∧
       (∀ h t, r'.put_queue = h :: t → doPut r'.state h = Option.none) ∧
       r'.get_queue = r.get_queue) ∧
    (∀ (S : Type) (doPut doGet : S → Nat → Option S) (r : BaseResource S)
       (req : Nat),
       doGet r.state req = Option.none →
       BaseResource.get doPut doGet r req =
         (⟨r.state, r.put_queue, r.get_queue ++ [req]⟩, false, [])) ∧
    (cap1AfterGets = ⟨false, [], [1, 2, 3]⟩ ∧
     cap1AfterPut = (⟨false, [], [2, 3]⟩, true, [1])) := by
  refine ⟨?_, ?_, ?_, ?_, by decide, by decide⟩
  · intro S doPut doGet r req r' res h
    unfold BaseResource.put at h
    cases hdo : doPut r.state req with
    | none => rw [hdo] at h; simp at h
    | some s' =>
      rw [hdo] at h
      dsimp only at h
      injection h with h1 h23
      injection h23 with h2 h3
      obtain ⟨c1, c2⟩ := cascadeGet_spec doGet r.get_queue s'
      subst h1
      subst h3
      exact ⟨c1, c2, rfl⟩
  · intro S doPut doGet r req h
    unfold BaseResource.put
    rw [h]
  · intro S doPut doGet r req r' res h
    unfold BaseResource.get at h
    cases hdo : doGet r.state req with
    | none => rw [hdo] at h; simp at h
    | some s' =>
      rw [hdo] at h
      dsimp only at h
      injection h with h1 h23
      injection h23 with h2 h3
      obtain ⟨c1, c2⟩ := cascadePut_spec doPut r.put_queue s'
      subst h1
      subst h3
      exact ⟨c1, c2, rfl⟩
  · intro S doPut doGet r req h
    unfold BaseResource.get
    rw [h]

/-- Witness for C3: the general cascade statement applied to the
capacity-1 scenario: the queue [1, 2, 3] splits as resolved [1] and
remaining [2, 3], whose head 2 is pending under the final empty
state. -/
theorem put_get_cascade_fifo_witness :
    cap1AfterGets.get_queue = [1] ++
      (⟨false, [], [2, 3]⟩ : BaseResource Bool).get_queue ∧
    (∀ h t, (⟨false, [], [2, 3]⟩ : BaseResource Bool).get_queue = h :: t →
       cap1Get (⟨false, [], [2, 3]⟩ : BaseResource Bool).state h =
         Option.none) ∧
    (⟨false, [], [2, 3]⟩ : BaseResource Bool).put_queue =
      cap1AfterGets.put_queue :=
  put_get_cascade_fifo.1 Bool cap1Put cap1Get cap1AfterGets 10
    ⟨false, [], [2, 3]⟩ [1] (by decide)

/-- C8: cancelling a request that is still pending removes exactly that
request from its queue, leaving the other queued requests in unchanged
relative order and the opposite queue and domain state untouched;
cancelling a request that has already resolved changes nothing. -/
theorem cancel_request_semantics :
    (∀ (S : Type) (pending : Nat → Bool) (r : BaseResource S) (req : Nat)
       (l1 l2 : List Nat),
       pending req = true → r.put_queue = l1 ++ req :: l2 → req ∉ l1 →
       BaseResource.cancelPut pending r req =
         { r with put_queue := l1 ++ l2 }) ∧
    (∀ (S : Type) (pending : Nat → Bool) (r : BaseResource S) (req : Nat),
       pending req = false → BaseResource.cancelPut pending r req = r) ∧
    (∀ (S : Type) (pending : Nat → Bool) (r : BaseResource S) (req : Nat)
       (l1 l2 : List Nat),
       pending req = true → r.get_queue = l1 ++ req :: l2 → req ∉ l1 →
       BaseResource.cancelGet pending r req =
         { r with get_queue := l1 ++ l2 }) ∧
    (∀ (S : Type) (pending : Nat → Bool) (r : BaseResource S) (req : Nat),
       pending req = false → BaseResource.cancelGet pending r req = r) := by
  refine ⟨?_, ?_, ?_, ?_⟩
  · intro S pending r req l1 l2 hp hq hnl
    unfold BaseResource.cancelPut
    rw [if_pos hp, hq]
    rw [List.erase_append_right _ hnl, List.erase_cons_head]
  · intro S pending r req hp
    unfold BaseResource.cancelPut
    rw [if_neg (by simp [hp])]
  · intro S pending r req l1 l2 hp hq hnl
    unfold BaseResource.cancelGet
    rw [if_pos hp, hq]
    rw [List.erase_append_right _ hnl, List.erase_cons_head]
  · intro S pending r req hp
    unfold BaseResource.cancelGet
    rw [if_neg (by simp [hp])]

/-- Witness for C8: cancelling pending request 2 from put queue
[1, 2, 3] yields [1, 3] with the get queue untouched, and cancelling a
resolved request is the identity. -/
theorem cancel_request_semantics_witness :
    BaseResource.cancelPut (fun _ => true)
        (⟨(), [1, 2, 3], [7]⟩ : BaseResource Unit) 2 =
      { (⟨(), [1, 2, 3], [7]⟩ : BaseResource Unit) with
        put_queue := [1] ++ [3] } ∧
    BaseResource.cancelGet (fun _ => false)
        (⟨(), [1, 2, 3], [7]⟩ : BaseResource Unit) 7 =
      (⟨(), [1, 2, 3], [7]⟩ : BaseResource Unit) :=
  ⟨cancel_request_semantics.1 Unit (fun _ => true) ⟨(), [1, 2, 3], [7]⟩ 2
      [1] [3] rfl rfl (by decide),
   cancel_request_semantics.2.2.2 Unit (fun _ => false) ⟨(), [1, 2, 3], [7]⟩
      7 rfl⟩

end Simpy

namespace Simpy

/-- The fired event's callback list is already detached (None) in the
state handed to its callbacks. -/
theorem fireState_detaches (s : CoreState) (e : Entry) (q' : List Entry) :
    (getEvent (fireState s e q') e.eid).callbacks = Option.none := by
  by_cases hlt : e.eid < s.events.length
  · rw [getEvent_fireState_self q' hlt]
  · rw [getEvent_default (by rw [fireState_events_length]; omega)]
    rfl

/-- No single callback can reattach a callback list to an event whose
list is detached: the attempted append raises instead. -/
theorem runCallback_preserves_detached (c : Callback) (f' k : Nat)
    (σ : CoreState) (h : (getEvent σ k).callbacks = Option.none) :
    (getEvent ((runCallback c f' σ).st) k).callbacks = Option.none := by
  cases c with
  | nop => exact h
  | stopSim =>
    simp only [runCallback]
    cases hv : (getEvent σ f').value with
    | none => exact h
    | some v => cases hok : (getEvent σ f').ok <;> simp [hok, CbResult.st, h]
  | registerStop tgt =>
    simp only [runCallback]
    cases hc : (getEvent σ tgt).callbacks with
    | none => exact h
    | some l =>
      have hne : tgt ≠ k := by
        intro he; rw [he, h] at hc; exact Option.noConfusion hc
      dsimp only [CbResult.st]
      rw [getEvent_setEvent_ne _ hne]
      exact h

/-- Running any list of callbacks keeps a detached callback list
detached, whatever the outcome. -/
theorem runCallbacks_preserve_detached (cbs : List Callback) (f k : Nat) :
    ∀ (σ : CoreState), (getEvent σ k).callbacks = Option.none →
    (getEvent ((runCallbacks cbs f σ).st) k).callbacks = Option.none := by
  induction cbs with
  | nil => intro σ h; exact h
  | cons c rest ih =>
    intro σ h
    simp only [runCallbacks]
    cases hr : runCallback c f σ with
    | ok σ' =>
      have hpre := runCallback_preserves_detached c f k σ h
      rw [hr] at hpre
      exact ih σ' hpre
    | raised r σ' =>
      have hpre := runCallback_preserves_detached c f k σ h
      rw [hr] at hpre
      exact hpre

/-- C9: when step fires an event, the callback list is detached before
any callback is invoked: the invocation state already has callbacks =
None for the fired event; no callback can restore or extend that list
(an attempted registration on the fired event raises AttributeError
instead of mutating); the fired event's list is still detached in the
state step leaves behind; and a second pop of the same event finds no
list to iterate, raising TypeError rather than re-running callbacks. -/
theorem step_detaches_callbacks_before_invoking :
    (∀ (s : CoreState) (e : Entry) (q' : List Entry),
       popMin s.queue = some (e, q') →
       (getEvent (fireState s e q') e.eid).callbacks = Option.none) ∧
    (∀ (cbs : List Callback) (f k : Nat) (σ : CoreState),
       (getEvent σ k).callbacks = Option.none →
       (getEvent ((runCallbacks cbs f σ).st) k).callbacks = Option.none) ∧
    (∀ (σ : CoreState) (f tgt : Nat),
       (getEvent σ tgt).callbacks = Option.none →
       runCallback (Callback.registerStop tgt) f σ =
         CbResult.raised (Raised.exc Val.attrErr) σ) ∧
    (∀ (s s'' : CoreState) (e : Entry) (q' : List Entry),
       popMin s.queue = some (e, q') → (step s).state? = some s'' →
       (getEvent s'' e.eid).callbacks = Option.none) ∧
    (∀ (s : CoreState) (e : Entry) (q' : List Entry),
       popMin s.queue = some (e, q') →
       (getEvent s e.eid).callbacks = Option.none →
       step s = StepResult.failure Val.typeErr
         { s with now := e.time, queue := q' }) := by
  refine ⟨?_, ?_, ?_, ?_, ?_⟩
  · intro s e q' _
    exact fireState_detaches s e q'
  · intro cbs f k σ h
    exact runCallbacks_preserve_detached cbs f k σ h
  · intro σ f tgt h
    simp only [runCallback]
    rw [h]
  · intro s s'' e q' hpop hs''
    unfold step at hs''
    rw [hpop] at hs''
    dsimp only at hs''
    cases hc : (getEvent s e.eid).callbacks with
    | none =>
      rw [hc] at hs''
      dsimp only at hs''
      simp only [StepResult.state?, Option.some.injEq] at hs''
      subst hs''
      exact hc
    | some cbs =>
      rw [hc] at hs''
      dsimp only at hs''
      have hpres := runCallbacks_preserve_detached cbs e.eid e.eid
        (fireState s e q') (fireState_detaches s e q')
      cases hr : runCallbacks cbs e.eid (fireState s e q') with
      | ok s3 =>
        rw [hr] at hs'' hpres
        dsimp only at hs''
        split at hs'' <;>
          (simp only [StepResult.state?, Option.some.injEq] at hs'';
           subst hs''; exact hpres)
      | raised r s3 =>
        rw [hr] at hs'' hpres
        cases r with
        | stop v =>
          dsimp only at hs''
          simp only [StepResult.state?, Option.some.injEq] at hs''
          subst hs''
          exact hpres
        | exc v =>
          dsimp only at hs''
          simp only [StepResult.state?, Option.some.injEq] at hs''
          subst hs''
          exact hpres
  · intro s e q' hpop hc
    unfold step
    rw [hpop]
    dsimp only
    rw [hc]

/-- Witness for C9: in the state handed to the callbacks of the popped
time-2 event, that event's callback list is already detached. -/
theorem step_detaches_callbacks_before_invoking_witness :
    (getEvent (fireState sDetach ⟨2, NORMAL, 0, 0⟩ []) 0).callbacks =
      Option.none :=
  step_detaches_callbacks_before_invoking.1 sDetach ⟨2, NORMAL, 0, 0⟩ []
    (by decide)

end Simpy

namespace Simpy

/-- C4: run with a numeric deadline T rejects T at or before the
current time with ValueError; for T strictly beyond now it schedules a
synthetic already-succeeded None-valued event at time T with URGENT
priority, steps until that event fires, and returns None with the
simulation clock exactly at T, while queued events beyond T, including
same-time NORMAL-priority events the urgent deadline preempts, are
still scheduled. -/
theorem run_until_time_semantics (s : CoreState) (T : Int)
    (hq : ∀ x ∈ s.queue, plainEv (getEvent s x.eid))
    (hid : ∀ x ∈ s.queue, x.eid < s.events.length)
    (hnd : (s.queue.map Entry.eid).Nodup) :
    (T ≤ s.now → run s (Until.time T) = RunResult.valueError) ∧
    (s.now < T → ∃ s', run s (Until.time T) = RunResult.value Val.nil s' ∧
       s'.now = T ∧
       ∀ x ∈ s.queue, (T < x.time ∨ (x.time = T ∧ x.prio = NORMAL)) →
         x ∈ s'.queue) := by
  constructor
  · intro hT
    unfold run
    dsimp only
    rw [if_pos hT]
  · intro hT
    have h1 : run s (Until.time T) =
        runLoop (some s.events.length)
          (appendStopCb
            (schedule { s with events := s.events ++ [untilEvent] }
              s.events.length URGENT (T - s.now))
            s.events.length) := by
      unfold run
      dsimp only
      rw [if_neg (by omega)]
    set s2 := schedule { s with events := s.events ++ [untilEvent] }
      s.events.length URGENT (T - s.now) with hs2
    have hget2 : getEvent s2 s.events.length = untilEvent :=
      listGetD_append_length _ _
    have happ : appendStopCb s2 s.events.length =
        setEvent s2 s.events.length
          { untilEvent with callbacks := some ([] ++ [Callback.stopSim]) } := by
      unfold appendStopCb
      rw [hget2]
      rfl
    set s3 := setEvent s2 s.events.length
      { untilEvent with callbacks := some ([] ++ [Callback.stopSim]) }
      with hs3
    have hq3 : s3.queue =
        s.queue ++ [⟨s.now + (T - s.now), URGENT, s.seq, s.events.length⟩] :=
      rfl
    have hlen2 : s2.events.length = s.events.length + 1 := by
      rw [hs2]
      simp [schedule]
    obtain ⟨s', hrun, hnow, _, hrem⟩ :=
      runLoopF_fires s3.queue.length s3 (some s.events.length)
        s.events.length
        ⟨s.now + (T - s.now), URGENT, s.seq, s.events.length⟩
        true false Val.nil []
        (le_refl _)
        (by rw [hq3]; exact List.mem_append_right _ (List.mem_singleton.mpr rfl))
        rfl
        (by
          rw [hs3]
          rw [getEvent_setEvent_self _ (by omega)]
          rfl)
        (fun c hc => absurd hc (List.not_mem_nil c))
        (by
          intro x hx hxe
          rw [hq3] at hx
          rcases List.mem_append.mp hx with hx | hx
          · have hxid := hid x hx
            have hxev : getEvent s3 x.eid = getEvent s x.eid := by
              rw [hs3]
              rw [getEvent_setEvent_ne _ (fun hh => hxe hh.symm)]
              exact listGetD_append_left _ hxid
            rw [hxev]
            exact hq x hx
          · rw [List.mem_singleton] at hx
            subst hx
            exact absurd rfl hxe)
        (by
          rw [hq3, List.map_append]
          refine (List.Perm.nodup_iff (List.perm_append_singleton _ _)).mpr ?_
          refine List.nodup_cons.mpr ⟨?_, hnd⟩
          intro hmem
          obtain ⟨y, hy, hyeid⟩ := List.mem_map.mp hmem
          have := hid y hy
          dsimp only at hyeid
          omega)
    refine ⟨s', ?_, ?_, ?_⟩
    · rw [h1, happ]
      exact hrun
    · rw [hnow]
      dsimp only
      omega
    · intro x hx hcond
      refine hrem x (by rw [hq3]; exact List.mem_append_left _ hx) ?_
      unfold Entry.keyLT
      rcases hcond with h | h
      · left
        dsimp only
        omega
      · right
        refine ⟨by dsimp only; omega, Or.inl ?_⟩
        dsimp only
        rw [h.2]
        decide

end Simpy

namespace Simpy

/-- Witness for C4: running until time 3 over a queue with events at
times 1 and 5 returns None at now = 3 with the time-5 event still
queued. -/
theorem run_until_time_semantics_witness :
    ∃ s', run sTwoTimeouts (Until.time 3) = RunResult.value Val.nil s' ∧
      s'.now = 3 ∧
      ∀ x ∈ sTwoTimeouts.queue,
        ((3 : Int) < x.time ∨ (x.time = 3 ∧ x.prio = NORMAL)) →
          x ∈ s'.queue :=
  (run_until_time_semantics sTwoTimeouts 3 (by decide) (by decide)
    (by decide)).2 (by decide)

/-- C6: run with an event until attaches StopSimulation.callback to it
and returns that event's value the instant the event fires (simulated
time equal to the event's scheduled time); if the schedule empties
before the until event fires, run ends in RuntimeError, distinct from
the normal termination run(until=None) reaches on the same drained
schedule. -/
theorem run_until_event_semantics :
    (∀ (s : CoreState) (uid : Nat) (u : Entry) (v : Val) (df : Bool)
       (l0 : List Callback),
       u ∈ s.queue → u.eid = uid →
       getEvent s uid =
         { ok := true, value := some v, defused := df,
           callbacks := some l0 } →
       (∀ c ∈ l0, c = Callback.nop) →
       (∀ x ∈ s.queue, x.eid ≠ uid → plainEv (getEvent s x.eid)) →
       (s.queue.map Entry.eid).Nodup →
       ∃ s', run s (Until.event uid) = RunResult.value v s' ∧
         s'.now = u.time) ∧
    (∀ (s : CoreState) (uid : Nat) (l0 : List Callback),
       (getEvent s uid).value = Option.none →
       (getEvent s uid).callbacks = some l0 →
       (∀ x ∈ s.queue, plainEv (getEvent s x.eid)) →
       (∀ x ∈ s.queue, x.eid ≠ uid) →
       (s.queue.map Entry.eid).Nodup →
       (∃ s', run s (Until.event uid) = RunResult.runtimeError s' ∧
          s'.queue = []) ∧
       (∃ s'', run s Until.none = RunResult.normal s'')) := by
  constructor
  · intro s uid u v df l0 hu hueid hget hl0 hplain hnd
    have hlt : uid < s.events.length := lt_length_of_callbacks (by rw [hget])
    have h1 : run s (Until.event uid) =
        runLoop (some uid) (appendStopCb s uid) := by
      unfold run
      dsimp only
      rw [hget]
    have happ : appendStopCb s uid =
        setEvent s uid
          { ok := true, value := some v, defused := df,
            callbacks := some (l0 ++ [Callback.stopSim]) } := by
      unfold appendStopCb
      rw [hget]
    obtain ⟨s', hrun, hnow, _, _⟩ :=
      runLoopF_fires
        (setEvent s uid
          { ok := true, value := some v, defused := df,
            callbacks := some (l0 ++ [Callback.stopSim]) }).queue.length
        (setEvent s uid
          { ok := true, value := some v, defused := df,
            callbacks := some (l0 ++ [Callback.stopSim]) })
        (some uid) uid u true df v l0
        (le_refl _) hu hueid
        (getEvent_setEvent_self _ hlt)
        hl0
        (by
          intro x hx hxe
          rw [getEvent_setEvent_ne _ (fun hh => hxe hh.symm)]
          exact hplain x hx hxe)
        hnd
    exact ⟨s', by rw [h1, happ]; exact hrun, hnow⟩
  · intro s uid l0 hval hcb hplain hxuid hnd
    have hlt : uid < s.events.length := lt_length_of_callbacks hcb
    have h1 : run s (Until.event uid) =
        runLoop (some uid) (appendStopCb s uid) := by
      unfold run
      dsimp only
      rw [hcb]
    have happ : appendStopCb s uid =
        setEvent s uid
          { getEvent s uid with
            callbacks := some (l0 ++ [Callback.stopSim]) } := by
      unfold appendStopCb
      rw [hcb]
    constructor
    · obtain ⟨s', hsq, hsget, hrun⟩ :=
        runLoopF_drains
          (setEvent s uid
            { getEvent s uid with
              callbacks := some (l0 ++ [Callback.stopSim]) }).queue.length
          (setEvent s uid
            { getEvent s uid with
              callbacks := some (l0 ++ [Callback.stopSim]) })
          (some uid)
          (le_refl _)
          (by
            intro x hx
            rw [getEvent_setEvent_ne _ (fun hh => (hxuid x hx) hh.symm)]
            exact hplain x hx)
          hnd
          (by
            intro uid' he x hx
            injection he with he
            rw [← he]
            exact hxuid x hx)
      have hv' : (getEvent s' uid).value = Option.none := by
        rw [hsget uid rfl, getEvent_setEvent_self _ hlt]
        exact hval
      refine ⟨s', ?_, hsq⟩
      rw [h1, happ]
      show runLoopF _ (some uid) _ = _
      rw [hrun]
      dsimp only
      rw [hv']
      rfl
    · obtain ⟨s'', _, _, hrun2⟩ :=
        runLoopF_drains s.queue.length s Option.none (le_refl _) hplain hnd
          (fun uid' he => Option.noConfusion he)
      refine ⟨s'', ?_⟩
      show runLoopF _ Option.none _ = _
      rw [hrun2]

/-- Witness for C6: running until the queued time-5 event returns its
value 2 at now = 5. -/
theorem run_until_event_semantics_witness :
    ∃ s', run sTwoTimeouts (Until.event 1) = RunResult.value (Val.num 2) s' ∧
      s'.now = 5 :=
  run_until_event_semantics.1 sTwoTimeouts 1 ⟨5, NORMAL, 1, 1⟩ (Val.num 2)
    false [] (by decide) rfl (by decide)
    (fun c hc => absurd hc (List.not_mem_nil c)) (by decide) (by decide)

/-- C10: StopSimulation.callback re-raises the stored failure value of a
failed until event instead of wrapping it in StopSimulation, so run
propagates the failure to its caller rather than returning; only an ok
until event makes run return the event's value. -/
theorem run_until_event_failure_propagates :
    (∀ (σ : CoreState) (f : Nat) (v : Val),
       (getEvent σ f).ok = false → (getEvent σ f).value = some v →
       runCallback Callback.stopSim f σ =
         CbResult.raised (Raised.exc v) σ) ∧
    (∀ (s : CoreState) (uid : Nat) (u : Entry) (b df : Bool) (v : Val)
       (l0 : List Callback),
       u ∈ s.queue → u.eid = uid →
       getEvent s uid =
         { ok := b, value := some v, defused := df, callbacks := some l0 } →
       (∀ c ∈ l0, c = Callback.nop) →
       (∀ x ∈ s.queue, x.eid ≠ uid → plainEv (getEvent s x.eid)) →
       (s.queue.map Entry.eid).Nodup →
       ∃ s', run s (Until.event uid) =
         (if b then RunResult.value v s' else RunResult.failure v s')) := by
  constructor
  · intro σ f v hok hv
    simp [runCallback, hv, hok]
  · intro s uid u b df v l0 hu hueid hget hl0 hplain hnd
    have hlt : uid < s.events.length := lt_length_of_callbacks (by rw [hget])
    have h1 : run s (Until.event uid) =
        runLoop (some uid) (appendStopCb s uid) := by
      unfold run
      dsimp only
      rw [hget]
    have happ : appendStopCb s uid =
        setEvent s uid
          { ok := b, value := some v, defused := df,
            callbacks := some (l0 ++ [Callback.stopSim]) } := by
      unfold appendStopCb
      rw [hget]
    obtain ⟨s', hrun, _, _, _⟩ :=
      runLoopF_fires
        (setEvent s uid
          { ok := b, value := some v, defused := df,
            callbacks := some (l0 ++ [Callback.stopSim]) }).queue.length
        (setEvent s uid
          { ok := b, value := some v, defused := df,
            callbacks := some (l0 ++ [Callback.stopSim]) })
        (some uid) uid u b df v l0
        (le_refl _) hu hueid
        (getEvent_setEvent_self _ hlt)
        hl0
        (by
          intro x hx hxe
          rw [getEvent_setEvent_ne _ (fun hh => hxe hh.symm)]
          exact hplain x hx hxe)
        hnd
    exact ⟨s', by rw [h1, happ]; exact hrun⟩

/-- Witness for C10: running until the failed event 0 propagates the
stored failure err 7 out of run instead of returning a value. -/
theorem run_until_event_failure_propagates_witness :
    ∃ s', run sFailedUntil (Until.event 0) =
      RunResult.failure (Val.err 7) s' :=
  run_until_event_failure_propagates.2 sFailedUntil 0 ⟨4, NORMAL, 0, 0⟩
    false false (Val.err 7) [] (by decide) rfl (by decide)
    (fun c hc => absurd hc (List.not_mem_nil c)) (by decide) (by decide)

end Simpy
